import Mathlib

/-
Verification of the Mamdani fuzzy inference core of the diabetes risk
assessment system (`diabetes_gui.py`, class `FuzzyDiabetesSystem`).

The repository source configures an external fuzzy-control library: the
membership-function parameters, the linguistic terms and the rule base are
taken verbatim from `FuzzyDiabetesSystem._setup_membership_functions` and
`FuzzyDiabetesSystem._setup_rules`.  The inference algorithm itself
(triangular/trapezoidal membership evaluation, min-conjunction, clip
implication, max aggregation, discrete-centroid defuzzification and the
catch-all fallback of `assess_risk`) lives in the external library, not in
the repository, and is therefore modelled from the specification.
Real arithmetic is embedded as exact rational arithmetic over `ℚ`.
-/

namespace FuzzyDiabetesSystem

/-- Modelled from the spec: triangular membership function `trimf (a,b,c)`
(the library function `fuzz.trimf` is not part of the repository source).
Zero for `x ≤ a` or `x ≥ c`, linear ramps on `(a,b)` and `(b,c)`, exactly `1`
at `x = b`; in the degenerate left-saturated case `a = b` the value is `1` at
and below `b`, so no zero-width ramp is ever divided by. -/
def trimf (a b c x : ℚ) : ℚ :=
  if a = b ∧ x ≤ b then 1
  else if x = b then 1
  else if a < x ∧ x < b then (x - a) / (b - a)
  else if b < x ∧ x < c then (c - x) / (c - b)
  else 0

/-- Modelled from the spec: trapezoidal membership function `trapmf (a,b,c,d)`
(the library function `fuzz.trapmf` is not part of the repository source).
Zero outside `[a,d]`, rising ramp on `(a,b)`, `1` on `[b,c]`, falling ramp on
`(c,d)`; in the degenerate right-saturated case `c = d` the value is clamped
to `1` for all `x ≥ c`, so no zero-width ramp is ever divided by. -/
def trapmf (a b c d x : ℚ) : ℚ :=
  if b ≤ x ∧ x ≤ c then 1
  else if a < x ∧ x < b then (x - a) / (b - a)
  else if c = d ∧ c ≤ x then 1
  else if c < x ∧ x < d then (d - x) / (d - c)
  else 0

/-- Linguistic terms of the antecedent variable `blood_sugar`. -/
inductive BloodSugarTerm
  | low
  | normal
  | high
  | very_high
deriving DecidableEq

/-- Linguistic terms of the antecedent variable `bmi`. -/
inductive BmiTerm
  | underweight
  | normal
  | overweight
  | obese
deriving DecidableEq

/-- Linguistic terms of the antecedent variable `age`. -/
inductive AgeTerm
  | young
  | middle_aged
  | elderly
deriving DecidableEq

/-- Linguistic terms of the consequent variable `risk`. -/
inductive RiskTerm
  | low
  | medium
  | high
deriving DecidableEq

/-- Membership functions of `blood_sugar`, parameters from
`_setup_membership_functions`. -/
def blood_sugar_mf : BloodSugarTerm → ℚ → ℚ
  | .low => trimf 0 0 80
  | .normal => trimf 70 90 110
  | .high => trimf 100 125 150
  | .very_high => trapmf 140 160 300 300

/-- Membership functions of `bmi`, parameters from
`_setup_membership_functions`. -/
def bmi_mf : BmiTerm → ℚ → ℚ
  | .underweight => trimf 0 0 (37/2)
  | .normal => trimf 18 22 25
  | .overweight => trimf 24 27 30
  | .obese => trapmf 29 32 50 50

/-- Membership functions of `age`, parameters from
`_setup_membership_functions`. -/
def age_mf : AgeTerm → ℚ → ℚ
  | .young => trimf 0 0 30
  | .middle_aged => trimf 25 45 60
  | .elderly => trapmf 50 65 100 100

/-- Membership functions of the consequent `risk`, parameters from
`_setup_membership_functions`. -/
def risk_mf : RiskTerm → ℚ → ℚ
  | .low => trimf 0 0 40
  | .medium => trimf 30 50 70
  | .high => trimf 60 100 100

/-- A crisp input assignment: one real value per antecedent variable,
mirroring the three arguments of `assess_risk`. -/
structure Inputs where
  blood_sugar : ℚ
  bmi : ℚ
  age : ℚ
deriving DecidableEq

/-- One antecedent `(variable, term)` pair of a rule. -/
inductive Antecedent
  | bs (t : BloodSugarTerm)
  | bmi (t : BmiTerm)
  | age (t : AgeTerm)
deriving DecidableEq

/-- A rule: a conjunction of antecedent pairs and one consequent risk term,
mirroring `ctrl.Rule`. -/
structure Rule where
  antecedents : List Antecedent
  consequent : RiskTerm
deriving DecidableEq

/-- The rule base of `_setup_rules`, in source order. -/
def rules : List Rule :=
  [⟨[.bs .normal, .bmi .normal, .age .young], .low⟩,
   ⟨[.bs .normal, .bmi .normal, .age .middle_aged], .low⟩,
   ⟨[.bs .high, .bmi .overweight], .medium⟩,
   ⟨[.bs .normal, .bmi .obese], .medium⟩,
   ⟨[.bs .high, .age .elderly], .medium⟩,
   ⟨[.bs .very_high, .bmi .obese], .high⟩,
   ⟨[.bs .very_high, .age .elderly], .high⟩,
   ⟨[.bs .high, .bmi .obese, .age .elderly], .high⟩]

/-- Fuzzification: the membership degree of the crisp input in one
antecedent `(variable, term)` pair. -/
def memDegree (i : Inputs) : Antecedent → ℚ
  | .bs t => blood_sugar_mf t i.blood_sugar
  | .bmi t => bmi_mf t i.bmi
  | .age t => age_mf t i.age

/-- Modelled from the spec: the firing strength of a rule is the minimum of
the membership degrees of its antecedent pairs (Mamdani AND; the library's
`&` operator is not part of the repository source). -/
def firingStrength (i : Inputs) (r : Rule) : ℚ :=
  (r.antecedents.map (memDegree i)).foldr min 1

/-- The discretization grid of the consequent universe
`np.arange(0, 101, 1)`: the integers `0, 1, ..., 100` as rationals. -/
def riskGrid : List ℚ :=
  (List.range 101).map (fun n : ℕ => (n : ℚ))

/-- Mamdani clip implication: the consequent membership of a rule truncated
at the rule's firing strength, sampled at one grid point. -/
def clippedAt (i : Inputs) (r : Rule) (x : ℚ) : ℚ :=
  min (risk_mf r.consequent x) (firingStrength i r)

/-- Modelled from the spec: aggregation over a rule list is the pointwise
maximum of the clipped consequent sets (the library's aggregation loop is
not part of the repository source). -/
def aggregateWith (rs : List Rule) (i : Inputs) (x : ℚ) : ℚ :=
  (rs.map (fun r => clippedAt i r x)).foldr max 0

/-- The aggregated consequent membership curve of the source rule base. -/
def aggregatedAt (i : Inputs) (x : ℚ) : ℚ :=
  aggregateWith rules i x

/-- The spec's per-term view of aggregation: the clipped sets of the rules
targeting one consequent term, maximized pointwise. -/
def termAggregateAt (i : Inputs) (t : RiskTerm) (x : ℚ) : ℚ :=
  ((rules.filter (fun r => r.consequent = t)).map
    (fun r => clippedAt i r x)).foldr max 0

/-- Numerator of the discrete centroid over a rule list. -/
def numerWith (rs : List Rule) (i : Inputs) : ℚ :=
  (riskGrid.map (fun x => x * aggregateWith rs i x)).sum

/-- Denominator of the discrete centroid over a rule list. -/
def denomWith (rs : List Rule) (i : Inputs) : ℚ :=
  (riskGrid.map (fun x => aggregateWith rs i x)).sum

/-- Modelled from the spec: the library's `compute` — discrete centroid
defuzzification, failing (raising) when the aggregated curve has zero area
(`none` models the raised exception). -/
def computeWith (rs : List Rule) (i : Inputs) : Option ℚ :=
  if denomWith rs i = 0 then none
  else some (numerWith rs i / denomWith rs i)

/-- The source system's compute over its own rule base. -/
def compute (i : Inputs) : Option ℚ :=
  computeWith rules i

/-- `assess_risk`: sets the three inputs, computes, returns the crisp risk;
any compute failure is caught and `0` is returned. -/
def assess_risk (blood_sugar bmi age : ℚ) : ℚ :=
  match compute ⟨blood_sugar, bmi, age⟩ with
  | some v => v
  | none => 0

/-- `assess_risk` together with its observable error signal: the boolean
records whether the `except` branch printed its error message. -/
def assessRiskLogged (blood_sugar bmi age : ℚ) : ℚ × Bool :=
  match compute ⟨blood_sugar, bmi, age⟩ with
  | some v => (v, false)
  | none => (0, true)

/-- The mutable input slots of the library's simulation object
(`diagnosis_sim.input`), as carried between calls to `assess_risk`. -/
structure SimState where
  input_blood_sugar : Option ℚ
  input_bmi : Option ℚ
  input_age : Option ℚ
deriving DecidableEq

/-- Modelled from the spec: compute reads the three input slots of the
simulation state; a missing slot is a failure. -/
def computeFromSim (s : SimState) : Option ℚ :=
  match s.input_blood_sugar, s.input_bmi, s.input_age with
  | some bs, some bm, some ag => compute ⟨bs, bm, ag⟩
  | _, _, _ => none

/-- `assess_risk` in its stateful form: it overwrites all three input slots
of the simulation object, computes, and returns the value (0 on failure)
together with the post-call state. -/
def assessRiskSim (_s : SimState) (blood_sugar bmi age : ℚ) : ℚ × SimState :=
  let s' : SimState := ⟨some blood_sugar, some bmi, some age⟩
  match computeFromSim s' with
  | some v => (v, s')
  | none => (0, s')

/-! Helper lemmas about folds of `min`/`max` and list sums over `ℚ`. -/

theorem foldr_max_nonneg (l : List ℚ) : 0 ≤ l.foldr max 0 := by
  induction l with
  | nil => simp
  | cons a t ih => exact le_trans ih (le_max_right a _)

theorem le_foldr_max (l : List ℚ) (a : ℚ) (ha : a ∈ l) : a ≤ l.foldr max 0 := by
  induction l with
  | nil => simp at ha
  | cons b t ih =>
    rcases List.mem_cons.mp ha with h | h
    · exact h ▸ le_max_left _ _
    · exact le_trans (ih h) (le_max_right _ _)

theorem foldr_max_pos (l : List ℚ) (h : 0 < l.foldr max 0) : ∃ a ∈ l, 0 < a := by
  induction l with
  | nil => simp at h
  | cons b t ih =>
    simp only [List.foldr_cons] at h
    rcases lt_max_iff.mp h with hb | ht
    · exact ⟨b, List.mem_cons_self b t, hb⟩
    · obtain ⟨a, ha, hpos⟩ := ih ht
      exact ⟨a, List.mem_cons_of_mem _ ha, hpos⟩

theorem foldr_max_eq_zero (l : List ℚ) (h : ∀ a ∈ l, a = 0) : l.foldr max 0 = 0 := by
  induction l with
  | nil => rfl
  | cons b t ih =>
    simp only [List.foldr_cons]
    rw [h b (List.mem_cons_self b t), ih fun a ha => h a (List.mem_cons_of_mem _ ha)]
    simp

theorem foldr_min_le_init (l : List ℚ) : l.foldr min 1 ≤ 1 := by
  induction l with
  | nil => simp
  | cons a t ih => exact le_trans (min_le_right a _) ih

theorem foldr_min_le (l : List ℚ) (a : ℚ) (ha : a ∈ l) : l.foldr min 1 ≤ a := by
  induction l with
  | nil => simp at ha
  | cons b t ih =>
    rcases List.mem_cons.mp ha with h | h
    · exact h ▸ min_le_left _ _
    · exact le_trans (min_le_right _ _) (ih h)

theorem foldr_min_nonneg (l : List ℚ) (h : ∀ a ∈ l, 0 ≤ a) : 0 ≤ l.foldr min 1 := by
  induction l with
  | nil => simp
  | cons b t ih =>
    simp only [List.foldr_cons]
    exact le_min (h b (List.mem_cons_self b t))
      (ih fun a ha => h a (List.mem_cons_of_mem _ ha))

theorem foldr_min_mem (l : List ℚ) (hne : l ≠ []) (hle : ∀ a ∈ l, a ≤ 1) :
    ∃ a ∈ l, l.foldr min 1 = a := by
  induction l with
  | nil => exact absurd rfl hne
  | cons b t ih =>
    cases t with
    | nil =>
      refine ⟨b, List.mem_cons_self b [], ?_⟩
      simpa using min_eq_left (hle b (List.mem_cons_self b []))
    | cons c u =>
      have hle' : ∀ a ∈ c :: u, a ≤ 1 := fun a ha =>
        hle a (List.mem_cons_of_mem _ ha)
      obtain ⟨a, ha, hfold⟩ := ih (by simp) hle'
      rcases le_total b ((c :: u).foldr min 1) with hb | hb
      · exact ⟨b, List.mem_cons_self _ _, by
          show min b ((c :: u).foldr min 1) = b
          exact min_eq_left hb⟩
      · exact ⟨a, List.mem_cons_of_mem _ ha, by
          show min b ((c :: u).foldr min 1) = a
          rw [min_eq_right hb]
          exact hfold⟩

theorem sum_map_le_sum_map (l : List ℚ) (f g : ℚ → ℚ) (h : ∀ x ∈ l, f x ≤ g x) :
    (l.map f).sum ≤ (l.map g).sum := by
  induction l with
  | nil => simp
  | cons b t ih =>
    simp only [List.map_cons, List.sum_cons]
    exact add_le_add (h b (List.mem_cons_self b t))
      (ih fun x hx => h x (List.mem_cons_of_mem _ hx))

theorem sum_map_lt_sum_map (l : List ℚ) (f g : ℚ → ℚ) (h : ∀ x ∈ l, f x ≤ g x)
    (x₀ : ℚ) (hx₀ : x₀ ∈ l) (hlt : f x₀ < g x₀) :
    (l.map f).sum < (l.map g).sum := by
  induction l with
  | nil => simp at hx₀
  | cons b t ih =>
    simp only [List.map_cons, List.sum_cons]
    have hrest : ∀ x ∈ t, f x ≤ g x := fun x hx => h x (List.mem_cons_of_mem _ hx)
    rcases List.mem_cons.mp hx₀ with hb | hb
    · exact add_lt_add_of_lt_of_le (hb ▸ hlt) (sum_map_le_sum_map t f g hrest)
    · exact add_lt_add_of_le_of_lt (h b (List.mem_cons_self b t)) (ih hrest hb)

/-! Bounds on the membership functions and the derived quantities. -/

theorem trimf_nonneg (a b c x : ℚ) : 0 ≤ trimf a b c x := by
  unfold trimf
  split_ifs with h1 h2 h3 h4
  · norm_num
  · norm_num
  · exact div_nonneg (by linarith [h3.1]) (by linarith [h3.1, h3.2])
  · exact div_nonneg (by linarith [h4.2]) (by linarith [h4.1, h4.2])
  · exact le_refl 0

theorem trimf_le_one (a b c x : ℚ) : trimf a b c x ≤ 1 := by
  unfold trimf
  split_ifs with h1 h2 h3 h4
  · norm_num
  · norm_num
  · rw [div_le_one (by linarith [h3.1, h3.2])]
    linarith [h3.2]
  · rw [div_le_one (by linarith [h4.1, h4.2])]
    linarith [h4.1]
  · norm_num

theorem trapmf_nonneg (a b c d x : ℚ) : 0 ≤ trapmf a b c d x := by
  unfold trapmf
  split_ifs with h1 h2 h3 h4
  · norm_num
  · exact div_nonneg (by linarith [h2.1]) (by linarith [h2.1, h2.2])
  · norm_num
  · exact div_nonneg (by linarith [h4.2]) (by linarith [h4.1, h4.2])
  · exact le_refl 0

theorem trapmf_le_one (a b c d x : ℚ) : trapmf a b c d x ≤ 1 := by
  unfold trapmf
  split_ifs with h1 h2 h3 h4
  · norm_num
  · rw [div_le_one (by linarith [h2.1, h2.2])]
    linarith [h2.2]
  · norm_num
  · rw [div_le_one (by linarith [h4.1, h4.2])]
    linarith [h4.1]
  · norm_num

theorem memDegree_nonneg (i : Inputs) (a : Antecedent) : 0 ≤ memDegree i a := by
  cases a with
  | bs t => cases t <;> simp [memDegree, blood_sugar_mf, trimf_nonneg, trapmf_nonneg]
  | bmi t => cases t <;> simp [memDegree, bmi_mf, trimf_nonneg, trapmf_nonneg]
  | age t => cases t <;> simp [memDegree, age_mf, trimf_nonneg, trapmf_nonneg]

theorem memDegree_le_one (i : Inputs) (a : Antecedent) : memDegree i a ≤ 1 := by
  cases a with
  | bs t => cases t <;> simp [memDegree, blood_sugar_mf, trimf_le_one, trapmf_le_one]
  | bmi t => cases t <;> simp [memDegree, bmi_mf, trimf_le_one, trapmf_le_one]
  | age t => cases t <;> simp [memDegree, age_mf, trimf_le_one, trapmf_le_one]

theorem risk_mf_nonneg (t : RiskTerm) (x : ℚ) : 0 ≤ risk_mf t x := by
  cases t <;> simp [risk_mf, trimf_nonneg]

theorem firingStrength_nonneg (i : Inputs) (r : Rule) : 0 ≤ firingStrength i r := by
  refine foldr_min_nonneg _ fun a ha => ?_
  obtain ⟨p, _, rfl⟩ := List.mem_map.mp ha
  exact memDegree_nonneg i p

theorem clippedAt_nonneg (i : Inputs) (r : Rule) (x : ℚ) : 0 ≤ clippedAt i r x :=
  le_min (risk_mf_nonneg _ _) (firingStrength_nonneg i r)

theorem aggregateWith_nonneg (rs : List Rule) (i : Inputs) (x : ℚ) :
    0 ≤ aggregateWith rs i x :=
  foldr_max_nonneg _

theorem riskGrid_nonneg : ∀ x ∈ riskGrid, (0 : ℚ) ≤ x := by
  intro x hx
  simp only [riskGrid, List.mem_map, List.mem_range] at hx
  obtain ⟨n, hn, rfl⟩ := hx
  positivity

theorem riskGrid_le_100 : ∀ x ∈ riskGrid, x ≤ (100 : ℚ) := by
  intro x hx
  simp only [riskGrid, List.mem_map, List.mem_range] at hx
  obtain ⟨n, hn, rfl⟩ := hx
  have h : n ≤ 100 := by omega
  exact_mod_cast h

theorem denomWith_nonneg (rs : List Rule) (i : Inputs) : 0 ≤ denomWith rs i := by
  refine List.sum_nonneg fun q hq => ?_
  obtain ⟨x, _, rfl⟩ := List.mem_map.mp hq
  exact aggregateWith_nonneg rs i x

/-! Engine-level lemmas. -/

theorem clippedAt_le_aggregateWith (rs : List Rule) (i : Inputs) (r : Rule)
    (hr : r ∈ rs) (x : ℚ) : clippedAt i r x ≤ aggregateWith rs i x :=
  le_foldr_max _ _ (List.mem_map.mpr ⟨r, hr, rfl⟩)

theorem aggregateWith_pos_elim (rs : List Rule) (i : Inputs) (x : ℚ)
    (h : 0 < aggregateWith rs i x) : ∃ r ∈ rs, 0 < clippedAt i r x := by
  obtain ⟨q, hq, hpos⟩ := foldr_max_pos _ h
  obtain ⟨r, hr, rfl⟩ := List.mem_map.mp hq
  exact ⟨r, hr, hpos⟩

theorem aggregateWith_eq_zero_of_strengths (rs : List Rule) (i : Inputs)
    (h : ∀ r ∈ rs, firingStrength i r = 0) (x : ℚ) : aggregateWith rs i x = 0 := by
  refine foldr_max_eq_zero _ fun q hq => ?_
  obtain ⟨r, hr, rfl⟩ := List.mem_map.mp hq
  unfold clippedAt
  rw [h r hr]
  exact min_eq_right (risk_mf_nonneg _ _)

theorem denomWith_eq_zero_of_agg_zero (i : Inputs)
    (h : ∀ x ∈ riskGrid, aggregatedAt i x = 0) : denomWith rules i = 0 := by
  refine List.sum_eq_zero fun q hq => ?_
  obtain ⟨x, hx, rfl⟩ := List.mem_map.mp hq
  exact h x hx

theorem mem_riskGrid (n : ℕ) (h : n < 101) : ((n : ℚ)) ∈ riskGrid := by
  simp only [riskGrid, List.mem_map]
  exact ⟨n, List.mem_range.mpr h, rfl⟩

theorem aggregatedAt_le_denom (i : Inputs) (x : ℚ) (hx : x ∈ riskGrid) :
    aggregatedAt i x ≤ denomWith rules i := by
  refine List.single_le_sum (fun q hq => ?_) _ (List.mem_map.mpr ⟨x, hx, rfl⟩)
  obtain ⟨y, hy, rfl⟩ := List.mem_map.mp hq
  exact aggregateWith_nonneg rules i y

/-- The grid point where each consequent term peaks at membership `1`. -/
def peakOf : RiskTerm → ℚ
  | .low => 0
  | .medium => 50
  | .high => 100

theorem risk_mf_peak (t : RiskTerm) : risk_mf t (peakOf t) = 1 := by
  cases t <;> norm_num [risk_mf, peakOf, trimf]

theorem peakOf_mem_riskGrid (t : RiskTerm) : peakOf t ∈ riskGrid := by
  cases t with
  | low => exact_mod_cast mem_riskGrid 0 (by norm_num)
  | medium => exact_mod_cast mem_riskGrid 50 (by norm_num)
  | high => exact_mod_cast mem_riskGrid 100 (by norm_num)

theorem denom_pos_of_fired (i : Inputs) (h : ∃ r ∈ rules, 0 < firingStrength i r) :
    0 < denomWith rules i := by
  obtain ⟨r, hr, hs⟩ := h
  have hclip : 0 < clippedAt i r (peakOf r.consequent) := by
    unfold clippedAt
    rw [risk_mf_peak]
    exact lt_min one_pos hs
  have hagg : 0 < aggregatedAt i (peakOf r.consequent) :=
    lt_of_lt_of_le hclip (clippedAt_le_aggregateWith rules i r hr _)
  exact lt_of_lt_of_le hagg
    (aggregatedAt_le_denom i _ (peakOf_mem_riskGrid r.consequent))

theorem assess_risk_eq_of_compute (bs bm ag v : ℚ)
    (h : compute ⟨bs, bm, ag⟩ = some v) : assess_risk bs bm ag = v := by
  unfold assess_risk
  rw [h]

theorem assess_risk_eq_zero_of_none (bs bm ag : ℚ)
    (h : compute ⟨bs, bm, ag⟩ = none) : assess_risk bs bm ag = 0 := by
  unfold assess_risk
  rw [h]

theorem strengths_origin : ∀ r ∈ rules, firingStrength ⟨0, 0, 0⟩ r = 0 := by
  intro r hr
  fin_cases hr <;>
    norm_num [firingStrength, memDegree, blood_sugar_mf, bmi_mf, age_mf,
      trimf, trapmf, min_def]

theorem compute_origin : compute ⟨0, 0, 0⟩ = none := by
  unfold compute computeWith
  rw [if_pos]
  exact denomWith_eq_zero_of_agg_zero _ fun x _ =>
    aggregateWith_eq_zero_of_strengths rules _ strengths_origin x

/-- Grouping the aggregation fold by consequent term. -/
theorem foldr_max_group (g : Rule → ℚ) (rs : List Rule) :
    (rs.map g).foldr max 0 =
      max (((rs.filter (fun r => r.consequent = RiskTerm.low)).map g).foldr max 0)
        (max (((rs.filter (fun r => r.consequent = RiskTerm.medium)).map g).foldr max 0)
          (((rs.filter (fun r => r.consequent = RiskTerm.high)).map g).foldr max 0)) := by
  induction rs with
  | nil => simp
  | cons r t ih =>
    rcases hcons : r.consequent with _ | _ | _ <;>
      simp only [List.map_cons, List.foldr_cons, List.filter_cons, hcons,
        decide_eq_true_eq, reduceIte] <;>
      rw [ih] <;>
      simp [max_comm, max_left_comm, max_assoc]

/-! Claim theorems. -/

/-- C1: in every `assess_risk` call in which at least one rule fires, the
crisp output equals the discrete centroid of the aggregated consequent
fuzzy set: the sum over every grid point `x` of the risk universe of
`x * mu x`, divided by the sum of `mu x`, where `mu` is the aggregated
membership from the rule base. -/
theorem c1_centroid_defuzzification (i : Inputs)
    (h : ∃ r ∈ rules, 0 < firingStrength i r) :
    assess_risk i.blood_sugar i.bmi i.age =
      (riskGrid.map (fun x => x * aggregatedAt i x)).sum /
        (riskGrid.map (fun x => aggregatedAt i x)).sum := by
  have hd : 0 < denomWith rules i := denom_pos_of_fired i h
  have hc : compute i = some (numerWith rules i / denomWith rules i) := by
    unfold compute computeWith
    rw [if_neg (ne_of_gt hd)]
  have := assess_risk_eq_of_compute i.blood_sugar i.bmi i.age _ hc
  rw [this]
  rfl

theorem c1_centroid_defuzzification_witness :
    (∃ r ∈ rules, 0 < firingStrength ⟨95, 22, 25⟩ r) ∧
      assess_risk 95 22 25 =
        (riskGrid.map (fun x => x * aggregatedAt ⟨95, 22, 25⟩ x)).sum /
          (riskGrid.map (fun x => aggregatedAt ⟨95, 22, 25⟩ x)).sum := by
  have hfire :
      0 < firingStrength ⟨95, 22, 25⟩
        ⟨[.bs .normal, .bmi .normal, .age .young], .low⟩ := by
    norm_num [firingStrength, memDegree, blood_sugar_mf, bmi_mf, age_mf,
      trimf, trapmf, min_def]
  have hex : ∃ r ∈ rules, 0 < firingStrength ⟨95, 22, 25⟩ r :=
    ⟨_, by unfold rules; exact List.mem_cons_self _ _, hfire⟩
  exact ⟨hex, c1_centroid_defuzzification ⟨95, 22, 25⟩ hex⟩

/-- C2: for every rule of the rule base, the firing strength is the minimum
of the membership degrees of its antecedent pairs: it is a lower bound of
all of them and attained at one of them.  In particular antecedent degrees
`3/10` and `7/10` fire the `high & overweight` rule at exactly `3/10`,
which is neither the average nor the product of the degrees. -/
theorem c2_firing_strength_is_min (i : Inputs) (r : Rule) (hr : r ∈ rules) :
    (∀ a ∈ r.antecedents, firingStrength i r ≤ memDegree i a) ∧
      (∃ a ∈ r.antecedents, firingStrength i r = memDegree i a) ∧
      firingStrength ⟨215/2, 261/10, 0⟩
        ⟨[.bs .high, .bmi .overweight], .medium⟩ = 3/10 ∧
      memDegree ⟨215/2, 261/10, 0⟩ (.bs .high) = 3/10 ∧
      memDegree ⟨215/2, 261/10, 0⟩ (.bmi .overweight) = 7/10 ∧
      ((3 : ℚ)/10) ≠ (3/10 + 7/10) / 2 ∧ ((3 : ℚ)/10) ≠ (3/10) * (7/10) := by
  refine ⟨?_, ?_, ?_, ?_, ?_, by norm_num, by norm_num⟩
  · intro a ha
    exact foldr_min_le _ _ (List.mem_map.mpr ⟨a, ha, rfl⟩)
  · have hne : r.antecedents.map (memDegree i) ≠ [] := by
      fin_cases hr <;> simp
    have hle : ∀ q ∈ r.antecedents.map (memDegree i), q ≤ 1 := by
      intro q hq
      obtain ⟨a, ha, rfl⟩ := List.mem_map.mp hq
      exact memDegree_le_one i a
    obtain ⟨q, hq, hfold⟩ := foldr_min_mem _ hne hle
    obtain ⟨a, ha, rfl⟩ := List.mem_map.mp hq
    exact ⟨a, ha, hfold⟩
  · norm_num [firingStrength, memDegree, blood_sugar_mf, bmi_mf, trimf, min_def]
  · norm_num [memDegree, blood_sugar_mf, trimf]
  · norm_num [memDegree, bmi_mf, trimf]

theorem c2_firing_strength_is_min_witness :
    (⟨[.bs .normal, .bmi .normal, .age .young], .low⟩ : Rule) ∈ rules ∧
      ((∀ a ∈ ([.bs .normal, .bmi .normal, .age .young] : List Antecedent),
          firingStrength ⟨0, 0, 0⟩
            ⟨[.bs .normal, .bmi .normal, .age .young], .low⟩ ≤ memDegree ⟨0, 0, 0⟩ a) ∧
        (∃ a ∈ ([.bs .normal, .bmi .normal, .age .young] : List Antecedent),
          firingStrength ⟨0, 0, 0⟩
            ⟨[.bs .normal, .bmi .normal, .age .young], .low⟩ = memDegree ⟨0, 0, 0⟩ a) ∧
        firingStrength ⟨215/2, 261/10, 0⟩
          ⟨[.bs .high, .bmi .overweight], .medium⟩ = 3/10 ∧
        memDegree ⟨215/2, 261/10, 0⟩ (.bs .high) = 3/10 ∧
        memDegree ⟨215/2, 261/10, 0⟩ (.bmi .overweight) = 7/10 ∧
        ((3 : ℚ)/10) ≠ (3/10 + 7/10) / 2 ∧ ((3 : ℚ)/10) ≠ (3/10) * (7/10)) := by
  have hmem : (⟨[.bs .normal, .bmi .normal, .age .young], .low⟩ : Rule) ∈ rules := by
    unfold rules
    exact List.mem_cons_self _ _
  exact ⟨hmem, c2_firing_strength_is_min ⟨0, 0, 0⟩ _ hmem⟩

/-- C4: the triangular membership function with ordered parameters
`a ≤ b ≤ c` is `0` left of `a` (when the rising edge is not degenerate)
and from `c` rightward (away from the peak), follows the two linear ramps
on `(a,b)` and `(b,c)`, is exactly `1` at `b`, and in the degenerate
left-saturated case `a = b` it is `1` at and below `b`. -/
theorem c4_trimf_piecewise (a b c x : ℚ) (hab : a ≤ b) (hbc : b ≤ c) :
    (a < b → x ≤ a → trimf a b c x = 0) ∧
      (c ≤ x → x ≠ b → trimf a b c x = 0) ∧
      (a < x → x < b → trimf a b c x = (x - a) / (b - a)) ∧
      (b < x → x < c → trimf a b c x = (c - x) / (c - b)) ∧
      trimf a b c b = 1 ∧
      (a = b → x ≤ b → trimf a b c x = 1) := by
  refine ⟨?_, ?_, ?_, ?_, ?_, ?_⟩ <;> unfold trimf
  · intro hlt hxa
    split_ifs with g1 g2 g3 g4
    · exact absurd g1.1 (ne_of_lt hlt)
    · exfalso; rw [g2] at hxa; linarith
    · exfalso; linarith [g3.1]
    · exfalso; linarith [g4.1]
    · rfl
  · intro hcx hxb
    split_ifs with g1 g2 g3
    · exact absurd (le_antisymm g1.2 (le_trans hbc hcx)) hxb
    · exfalso; linarith [g2.2]
    · exfalso; linarith [g3.2]
    · rfl
  · intro hax hxb
    split_ifs with g1 g2 g3 g4
    · exfalso; rcases g1 with ⟨rfl, -⟩; linarith
    · exfalso; rw [g2] at hxb; linarith
    · rfl
    · exfalso; linarith [g4.1]
    · exact absurd ⟨hax, hxb⟩ g3
  · intro hbx hxc
    split_ifs with g1 g2 g3 g4
    · exfalso; linarith [g1.2]
    · exfalso; rw [g2] at hbx; linarith
    · exfalso; linarith [g3.2]
    · rfl
    · exact absurd ⟨hbx, hxc⟩ g4
  · split_ifs with g1 g2 g3 g4
    · rfl
    · rfl
    · exfalso; linarith [g3.2]
    · exfalso; linarith [g4.1]
    · exact absurd rfl g2
  · intro hb hxb
    split_ifs with g1 g2 g3 g4
    · rfl
    · rfl
    · exact absurd ⟨hb, hxb⟩ g1
    · exact absurd ⟨hb, hxb⟩ g1
    · exact absurd ⟨hb, hxb⟩ g1

theorem c4_trimf_piecewise_witness :
    ((70 : ℚ) ≤ 90 ∧ (90 : ℚ) ≤ 110) ∧
      (((70 : ℚ) < 90 → (80 : ℚ) ≤ 70 → trimf 70 90 110 80 = 0) ∧
        ((110 : ℚ) ≤ 80 → (80 : ℚ) ≠ 90 → trimf 70 90 110 80 = 0) ∧
        ((70 : ℚ) < 80 → (80 : ℚ) < 90 →
          trimf 70 90 110 80 = (80 - 70) / (90 - 70)) ∧
        ((90 : ℚ) < 80 → (80 : ℚ) < 110 →
          trimf 70 90 110 80 = (110 - 80) / (110 - 90)) ∧
        trimf 70 90 110 90 = 1 ∧
        ((70 : ℚ) = 90 → (80 : ℚ) ≤ 90 → trimf 70 90 110 80 = 1)) :=
  ⟨⟨by norm_num, by norm_num⟩,
    c4_trimf_piecewise 70 90 110 80 (by norm_num) (by norm_num)⟩

/-- Helper: a trapezoid whose last two control points coincide is clamped
to `1` everywhere from the start of its plateau on. -/
theorem trapmf_right_saturated (a b c x : ℚ) (hbc : b ≤ c) (hcx : c ≤ x) :
    trapmf a b c c x = 1 := by
  unfold trapmf
  by_cases hxc : x ≤ c
  · rw [if_pos ⟨le_trans hbc hcx, hxc⟩]
  · rw [if_neg fun g => hxc g.2, if_neg fun g => hxc (le_trans (le_of_lt g.2) hbc),
      if_pos ⟨rfl, hcx⟩]

/-- C5: every trapezoidal membership function whose last two parameters
coincide evaluates to `1` for every `x` at or beyond `c`; in particular the
right-saturated source terms `very_high`, `obese` and `elderly` are `1`
from their plateau start up to (and including) their universe maximum,
with no division by a zero-width falling segment. -/
theorem c5_trapmf_degenerate (a b c d x : ℚ) (_hab : a ≤ b) (hbc : b ≤ c)
    (hcd : c = d) (hcx : c ≤ x) :
    trapmf a b c d x = 1 ∧
      (300 ≤ x → blood_sugar_mf .very_high x = 1) ∧
      (50 ≤ x → bmi_mf .obese x = 1) ∧
      (100 ≤ x → age_mf .elderly x = 1) := by
  subst hcd
  refine ⟨trapmf_right_saturated a b c x hbc hcx, fun h => ?_, fun h => ?_, fun h => ?_⟩
  · simpa [blood_sugar_mf] using trapmf_right_saturated 140 160 300 x (by norm_num) h
  · simpa [bmi_mf] using trapmf_right_saturated 29 32 50 x (by norm_num) h
  · simpa [age_mf] using trapmf_right_saturated 50 65 100 x (by norm_num) h

theorem c5_trapmf_degenerate_witness :
    ((140 : ℚ) ≤ 160 ∧ (160 : ℚ) ≤ 300 ∧ (300 : ℚ) = 300 ∧ (300 : ℚ) ≤ 300) ∧
      (trapmf 140 160 300 300 300 = 1 ∧
        ((300 : ℚ) ≤ 300 → blood_sugar_mf .very_high 300 = 1) ∧
        ((50 : ℚ) ≤ 300 → bmi_mf .obese 300 = 1) ∧
        ((100 : ℚ) ≤ 300 → age_mf .elderly 300 = 1)) :=
  ⟨⟨by norm_num, by norm_num, rfl, by norm_num⟩,
    c5_trapmf_degenerate 140 160 300 300 300 (by norm_num) (by norm_num) rfl
      (by norm_num)⟩

/-- Helper: sums scale with a constant left factor. -/
theorem sum_map_mul_left_q (l : List ℚ) (f : ℚ → ℚ) (r : ℚ) :
    (l.map fun x => r * f x).sum = r * (l.map f).sum := by
  induction l with
  | nil => simp
  | cons b t ih => simp [List.map_cons, List.sum_cons, ih, mul_add]

/-- Helper: a risk-grid point is either the top point `100` or at most `99`. -/
theorem riskGrid_top_or (x : ℚ) (hx : x ∈ riskGrid) : x = 100 ∨ x ≤ 99 := by
  simp only [riskGrid, List.mem_map, List.mem_range] at hx
  obtain ⟨n, hn, rfl⟩ := hx
  by_cases h : n = 100
  · subst h; left; norm_num
  · right
    have : n ≤ 99 := by omega
    exact_mod_cast this

/-- C3: aggregation is the pointwise maximum of the clipped consequent
sets, grouped per consequent term (max across the rules targeting each
term, then max across terms), and the rule base's order is irrelevant:
any permutation of the rules yields the same compute result and the same
`assess_risk` output.  Concretely, two rules targeting `high` firing at
`2/5` and `3/5` aggregate at the peak grid point to `3/5` — neither their
sum nor `1`. -/
theorem c3_aggregation_max_order_independent (rs : List Rule) (i : Inputs) (x : ℚ) :
    (aggregatedAt i x =
      max (termAggregateAt i .low x)
        (max (termAggregateAt i .medium x) (termAggregateAt i .high x))) ∧
      (rs.Perm rules →
        computeWith rs i = compute i ∧
          (computeWith rs i).getD 0 = assess_risk i.blood_sugar i.bmi i.age) ∧
      firingStrength ⟨156, 151/5, 59⟩ ⟨[.bs .very_high, .bmi .obese], .high⟩ = 2/5 ∧
      firingStrength ⟨156, 151/5, 59⟩ ⟨[.bs .very_high, .age .elderly], .high⟩ = 3/5 ∧
      termAggregateAt ⟨156, 151/5, 59⟩ .high 100 = 3/5 ∧
      ((3 : ℚ)/5) ≠ 2/5 + 3/5 ∧ ((3 : ℚ)/5) ≠ 1 := by
  refine ⟨foldr_max_group (fun r => clippedAt i r x) rules, ?_, ?_, ?_, ?_,
    by norm_num, by norm_num⟩
  · intro hp
    have hagg : aggregateWith rs i = aggregateWith rules i := by
      funext y
      unfold aggregateWith
      exact @List.Perm.foldr_eq ℚ ℚ max _ _ max_left_commutative
        (hp.map (fun r => clippedAt i r y)) 0
    have hnum : numerWith rs i = numerWith rules i := by
      unfold numerWith
      rw [hagg]
    have hden : denomWith rs i = denomWith rules i := by
      unfold denomWith
      rw [hagg]
    have hcw : computeWith rs i = compute i := by
      unfold compute computeWith
      rw [hnum, hden]
    refine ⟨hcw, ?_⟩
    rw [hcw]
    cases h : compute i with
    | none =>
      rw [assess_risk_eq_zero_of_none i.blood_sugar i.bmi i.age h]
      rfl
    | some v =>
      rw [assess_risk_eq_of_compute i.blood_sugar i.bmi i.age v h]
      rfl
  · norm_num [firingStrength, memDegree, blood_sugar_mf, bmi_mf, trapmf, min_def]
  · norm_num [firingStrength, memDegree, blood_sugar_mf, age_mf, trapmf, min_def]
  · rw [termAggregateAt,
      show (rules.filter (fun r => r.consequent = RiskTerm.high)) =
        [⟨[.bs .very_high, .bmi .obese], .high⟩,
         ⟨[.bs .very_high, .age .elderly], .high⟩,
         ⟨[.bs .high, .bmi .obese, .age .elderly], .high⟩] from by
        simp [rules, List.filter_cons]]
    norm_num [clippedAt, risk_mf, firingStrength, memDegree, blood_sugar_mf,
      bmi_mf, age_mf, trimf, trapmf, min_def, max_def]

theorem c3_aggregation_max_order_independent_witness :
    rules.reverse.Perm rules ∧
      (computeWith rules.reverse ⟨95, 22, 25⟩ = compute ⟨95, 22, 25⟩ ∧
        (computeWith rules.reverse ⟨95, 22, 25⟩).getD 0 = assess_risk 95 22 25) :=
  ⟨List.reverse_perm rules,
    (c3_aggregation_max_order_independent rules.reverse ⟨95, 22, 25⟩ 0).2.1
      (List.reverse_perm rules)⟩

/-- C6: when valid inputs fire no rule (the aggregated curve is zero at
every grid point), compute fails instead of dividing by zero,
`assess_risk` returns the defined fallback `0`, and the logged error
signal distinguishes this outcome from any call in which a rule fired. -/
theorem c6_no_rule_fired_fallback (bs bm ag bs' bm' ag' : ℚ)
    (h : ∀ x ∈ riskGrid, aggregatedAt ⟨bs, bm, ag⟩ x = 0)
    (h' : ∃ r ∈ rules, 0 < firingStrength ⟨bs', bm', ag'⟩ r) :
    compute ⟨bs, bm, ag⟩ = none ∧
      assess_risk bs bm ag = 0 ∧
      assessRiskLogged bs bm ag = (0, true) ∧
      assessRiskLogged bs bm ag ≠ assessRiskLogged bs' bm' ag' := by
  have hden : denomWith rules ⟨bs, bm, ag⟩ = 0 := denomWith_eq_zero_of_agg_zero _ h
  have hnone : compute ⟨bs, bm, ag⟩ = none := by
    unfold compute computeWith
    rw [if_pos hden]
  have hd' : 0 < denomWith rules ⟨bs', bm', ag'⟩ := denom_pos_of_fired _ h'
  have hsome : compute ⟨bs', bm', ag'⟩ =
      some (numerWith rules ⟨bs', bm', ag'⟩ / denomWith rules ⟨bs', bm', ag'⟩) := by
    unfold compute computeWith
    rw [if_neg (ne_of_gt hd')]
  refine ⟨hnone, assess_risk_eq_zero_of_none bs bm ag hnone, ?_, ?_⟩
  · unfold assessRiskLogged
    rw [hnone]
  · unfold assessRiskLogged
    rw [hnone, hsome]
    simp

theorem c6_no_rule_fired_fallback_witness :
    ((∀ x ∈ riskGrid, aggregatedAt ⟨0, 0, 0⟩ x = 0) ∧
        (∃ r ∈ rules, 0 < firingStrength ⟨95, 22, 25⟩ r)) ∧
      (compute ⟨0, 0, 0⟩ = none ∧
        assess_risk 0 0 0 = 0 ∧
        assessRiskLogged 0 0 0 = (0, true) ∧
        assessRiskLogged 0 0 0 ≠ assessRiskLogged 95 22 25) := by
  have h1 : ∀ x ∈ riskGrid, aggregatedAt ⟨0, 0, 0⟩ x = 0 := fun x _ =>
    aggregateWith_eq_zero_of_strengths rules _ strengths_origin x
  have hfire :
      0 < firingStrength ⟨95, 22, 25⟩
        ⟨[.bs .normal, .bmi .normal, .age .young], .low⟩ := by
    norm_num [firingStrength, memDegree, blood_sugar_mf, bmi_mf, age_mf,
      trimf, trapmf, min_def]
  have h2 : ∃ r ∈ rules, 0 < firingStrength ⟨95, 22, 25⟩ r :=
    ⟨_, by unfold rules; exact List.mem_cons_self _ _, hfire⟩
  exact ⟨⟨h1, h2⟩, c6_no_rule_fired_fallback 0 0 0 95 22 25 h1 h2⟩

/-- C7: for every triple of crisp inputs, the value returned by
`assess_risk` lies in the consequent universe's range `[0, 100)`. -/
theorem c7_output_range (bs bm ag : ℚ) :
    0 ≤ assess_risk bs bm ag ∧ assess_risk bs bm ag < 100 := by
  by_cases hd : denomWith rules ⟨bs, bm, ag⟩ = 0
  · have hnone : compute ⟨bs, bm, ag⟩ = none := by
      unfold compute computeWith
      rw [if_pos hd]
    rw [assess_risk_eq_zero_of_none bs bm ag hnone]
    norm_num
  · have hdpos : 0 < denomWith rules ⟨bs, bm, ag⟩ :=
      lt_of_le_of_ne (denomWith_nonneg rules _) (Ne.symm hd)
    have hsome : compute ⟨bs, bm, ag⟩ =
        some (numerWith rules ⟨bs, bm, ag⟩ / denomWith rules ⟨bs, bm, ag⟩) := by
      unfold compute computeWith
      rw [if_neg hd]
    rw [assess_risk_eq_of_compute bs bm ag _ hsome]
    constructor
    · refine div_nonneg ?_ (le_of_lt hdpos)
      refine List.sum_nonneg fun q hq => ?_
      obtain ⟨x, hx, rfl⟩ := List.mem_map.mp hq
      exact mul_nonneg (riskGrid_nonneg x hx) (aggregateWith_nonneg rules _ x)
    · rw [div_lt_iff₀ hdpos]
      have hex : ∃ x ∈ riskGrid, 0 < aggregatedAt ⟨bs, bm, ag⟩ x := by
        by_contra hcon
        push_neg at hcon
        exact hd (denomWith_eq_zero_of_agg_zero _ fun x hx =>
          le_antisymm (hcon x hx) (aggregateWith_nonneg rules _ x))
      obtain ⟨x₀, hx₀, hpos⟩ := hex
      have hex99 : ∃ y ∈ riskGrid, y ≤ 99 ∧ 0 < aggregatedAt ⟨bs, bm, ag⟩ y := by
        rcases riskGrid_top_or x₀ hx₀ with htop | hle
        · subst htop
          obtain ⟨r, hr, hclip⟩ := aggregateWith_pos_elim rules _ 100 hpos
          obtain ⟨hmf, hs⟩ := lt_min_iff.mp hclip
          have hcons : r.consequent = RiskTerm.high := by
            rcases hrc : r.consequent with _ | _ | _
            · rw [hrc] at hmf
              norm_num [risk_mf, trimf] at hmf
            · rw [hrc] at hmf
              norm_num [risk_mf, trimf] at hmf
            · rfl
          refine ⟨99, ?_, by norm_num, ?_⟩
          · exact_mod_cast mem_riskGrid 99 (by norm_num)
          · refine lt_of_lt_of_le ?_ (clippedAt_le_aggregateWith rules _ r hr 99)
            unfold clippedAt
            rw [hcons]
            refine lt_min ?_ hs
            norm_num [risk_mf, trimf]
        · exact ⟨x₀, hx₀, hle, hpos⟩
      obtain ⟨y, hy, hy99, hypos⟩ := hex99
      have hlt : (riskGrid.map (fun x => x * aggregateWith rules ⟨bs, bm, ag⟩ x)).sum <
          (riskGrid.map (fun x => 100 * aggregateWith rules ⟨bs, bm, ag⟩ x)).sum := by
        refine sum_map_lt_sum_map riskGrid _ _ (fun x hx => ?_) y hy ?_
        · exact mul_le_mul_of_nonneg_right (riskGrid_le_100 x hx)
            (aggregateWith_nonneg rules _ x)
        · exact mul_lt_mul_of_pos_right (lt_of_le_of_lt hy99 (by norm_num)) hypos
      calc numerWith rules ⟨bs, bm, ag⟩ <
            (riskGrid.map (fun x => 100 * aggregateWith rules ⟨bs, bm, ag⟩ x)).sum := hlt
        _ = 100 * denomWith rules ⟨bs, bm, ag⟩ :=
            sum_map_mul_left_q riskGrid (aggregateWith rules ⟨bs, bm, ag⟩) 100

/-- C8: `assess_risk` is deterministic and stateless between calls: the
returned value does not depend on the simulation state left behind by
earlier calls, a repeated call with the same inputs on the post-call state
returns the identical value, and the result always equals the pure
function of the three crisp inputs. -/
theorem c8_stateless_deterministic (s₁ s₂ : SimState) (bs bm ag : ℚ) :
    (assessRiskSim s₁ bs bm ag).1 = (assessRiskSim s₂ bs bm ag).1 ∧
      (assessRiskSim (assessRiskSim s₁ bs bm ag).2 bs bm ag).1 =
        (assessRiskSim s₁ bs bm ag).1 ∧
      (assessRiskSim s₁ bs bm ag).1 = assess_risk bs bm ag := by
  refine ⟨rfl, rfl, ?_⟩
  have hred : assessRiskSim s₁ bs bm ag =
      (match compute ⟨bs, bm, ag⟩ with
        | some v => (v, (⟨some bs, some bm, some ag⟩ : SimState))
        | none => (0, (⟨some bs, some bm, some ag⟩ : SimState))) := rfl
  rw [hred]
  unfold assess_risk
  cases compute ⟨bs, bm, ag⟩ <;> rfl

/-- C9: the boundary inputs `blood_sugar = 0`, `bmi = 0`, `age = 0`
exercise the degenerate left-saturated membership edges without numeric
fault: the zero-width rising edges evaluate cleanly to `1`, every rule's
firing strength is `0`, compute signals the empty aggregate instead of
performing a division, and `assess_risk` returns `0`. -/
theorem c9_boundary_inputs :
    blood_sugar_mf .low 0 = 1 ∧ bmi_mf .underweight 0 = 1 ∧ age_mf .young 0 = 1 ∧
      rules.map (firingStrength ⟨0, 0, 0⟩) = [0, 0, 0, 0, 0, 0, 0, 0] ∧
      compute ⟨0, 0, 0⟩ = none ∧ assess_risk 0 0 0 = 0 := by
  refine ⟨by norm_num [blood_sugar_mf, trimf], by norm_num [bmi_mf, trimf],
    by norm_num [age_mf, trimf], ?_, compute_origin,
    assess_risk_eq_zero_of_none 0 0 0 compute_origin⟩
  norm_num [rules, firingStrength, memDegree, blood_sugar_mf, bmi_mf, age_mf,
    trimf, trapmf, min_def]

/-- C10: `assess_risk` is total over all rational inputs and never
propagates a failure: a failing compute is caught and mapped to exactly
`0`, a successful compute value is returned unchanged, and every failure
mode collapses to the same bare return value `0`, with no error component
in the return type. -/
theorem c10_total_catch_all (bs bm ag : ℚ) :
    (compute ⟨bs, bm, ag⟩ = none → assess_risk bs bm ag = 0) ∧
      (∀ v, compute ⟨bs, bm, ag⟩ = some v → assess_risk bs bm ag = v) ∧
      (∀ bs' bm' ag', compute ⟨bs, bm, ag⟩ = none →
        compute ⟨bs', bm', ag'⟩ = none →
        assess_risk bs bm ag = assess_risk bs' bm' ag') := by
  refine ⟨assess_risk_eq_zero_of_none bs bm ag,
    fun v hv => assess_risk_eq_of_compute bs bm ag v hv, ?_⟩
  intro bs' bm' ag' h h'
  rw [assess_risk_eq_zero_of_none bs bm ag h,
    assess_risk_eq_zero_of_none bs' bm' ag' h']

theorem c10_total_catch_all_witness :
    compute ⟨0, 0, 0⟩ = none ∧ assess_risk 0 0 0 = 0 :=
  ⟨compute_origin, (c10_total_catch_all 0 0 0).1 compute_origin⟩

end FuzzyDiabetesSystem
